import Mathlib

/-! # Roster Engine verification

Shallow embedding of the pure "Roster Engine" logic of `src/src/App.tsx`
(the HR-helper single-page app): participants, duplicate detection,
deduplication, the lucky-draw selection, and group partitioning.  State
updates are modelled by explicit state passing; the randomness consumed by
the code (`Math.random()`) is modelled as an explicit input (a stream of
comparator coins for the shuffle, a chosen index for the draw, an id
stream for participant creation). -/

/-- A participant, `Person` of the app: `{ id, name }`, both strings
(ids originate from `Math.random().toString(36).substr(2, 9)`). -/
structure Person where
  id : String
  name : String
deriving DecidableEq, Repr

/-- The component state the claims are about: `names` (the Roster),
`winners` (the Winner record, most recent first), `groups` (the Group
set). -/
structure AppState where
  names : List Person
  winners : List Person
  groups : List (List Person)
deriving DecidableEq, Repr

/-- `duplicates` (App.tsx:47-49):
`names.filter((person, index) => names.findIndex(n => n.name === person.name) !== index).map(p => p.name)`.
An occurrence is kept exactly when it is not the first occurrence of its
name. -/
def duplicates (names : List Person) : List String :=
  ((names.enum.filter fun pi =>
      names.findIdx (fun n => n.name == pi.2.name) != pi.1).map fun pi => pi.2.name)

/-- Recursive presentation of `duplicates`: `seen` holds the names of the
participants already passed.  Used as a stepping stone to reason about the
`findIndex`-based definition. -/
def dupNames (seen : List String) : List Person → List String
  | [] => []
  | p :: rest =>
    (if p.name ∈ seen then [p.name] else []) ++ dupNames (p.name :: seen) rest

/-- The loop body of `removeDuplicates` (App.tsx:63-71): a `Set` named
`seen` accumulates every name walked over; a participant is kept exactly
when its name was not seen before it. -/
def removeDuplicatesAux (seen : List String) : List Person → List Person
  | [] => []
  | p :: rest =>
    if p.name ∈ seen then removeDuplicatesAux (p.name :: seen) rest
    else p :: removeDuplicatesAux (p.name :: seen) rest

/-- `removeDuplicates` (App.tsx:63-71). -/
def removeDuplicates (names : List Person) : List Person :=
  removeDuplicatesAux [] names

/-- What a call to `startDraw` signals: the silent early return on an
empty roster (App.tsx:140), the `alert('沒有可抽取的名單了！')` on an empty
pool (App.tsx:147), or a drawn winner (App.tsx:166). -/
inductive DrawSignal where
  | silentReturn
  | noCandidates
  | drew (winner : Person)
deriving DecidableEq, Repr

/-- The eligible pool of `startDraw` (App.tsx:142-144):
`allowRepeat ? names : names.filter(n => !winners.find(w => w.id === n.id))`. -/
def eligiblePool (names winners : List Person) (allowRepeat : Bool) : List Person :=
  if allowRepeat then names
  else names.filter fun n => !(winners.any fun w => w.id == n.id)

/-- `startDraw` (App.tsx:139-179), reduced to its state effect.  `k` models
the final `Math.floor(Math.random() * availableNames.length)` of line 166
(the intermediate animation samples only touch the display).  Returns the
signal together with the resulting winner list. -/
def startDraw (names winners : List Person) (allowRepeat : Bool) (k : Nat) :
    DrawSignal × List Person :=
  if names.length = 0 then (DrawSignal.silentReturn, winners)
  else
    let avail := eligiblePool names winners allowRepeat
    if avail.length = 0 then (DrawSignal.noCandidates, winners)
    else
      let w := avail.getD k ⟨"", ""⟩
      (DrawSignal.drew w, w :: winners)

/-- One insertion step of the comparator sort in `generateGroups`
(App.tsx:185): the comparator `() => Math.random() - 0.5` ignores its
arguments and returns a fresh random sign, modelled as the next coin of
`coins` (`true` = negative, i.e. the left argument stays in front).
Returns the unconsumed coins together with the list with `x` inserted. -/
def insertRand (x : α) : List Bool → List α → List Bool × List α
  | coins, [] => (coins, [x])
  | coins, y :: ys =>
    if coins.headD false then (coins.tail, x :: y :: ys)
    else
      let p := insertRand x coins.tail ys
      (p.1, y :: p.2)

/-- `Array.prototype.sort` with the random comparator, modelled as an
insertion sort consuming comparator coins (for the short arrays at hand,
engines run an insertion sort; any comparison sort gives the same
analysis). -/
def sortRand : List Bool → List α → List Bool × List α
  | coins, [] => (coins, [])
  | coins, x :: xs =>
    let p := sortRand coins xs
    insertRand x p.1 p.2

/-- The shuffled roster `[...names].sort(() => Math.random() - 0.5)` of
App.tsx:185, as a function of the comparator coins. -/
def shuffle (coins : List Bool) (l : List α) : List α :=
  (sortRand coins l).2

/-- JavaScript `Array.prototype.slice(start, stop)`: negative indices
count from the end, both ends clamp into `[0, length]`. -/
def jsSlice (l : List α) (start stop : Int) : List α :=
  let len : Int := l.length
  let s : Int := if start < 0 then max (len + start) 0 else min start len
  let e : Int := if stop < 0 then max (len + stop) 0 else min stop len
  (l.take e.toNat).drop s.toNat

/-- The chunking loop of `generateGroups` (App.tsx:189-191):
`for (let i = 0; i < shuffled.length; i += size) result.push(shuffled.slice(i, i + size))`.
`size` is an `Int` exactly as in the source (the number input admits
negative values); `fuel` bounds the number of iterations, `none` meaning
the bound was hit — the loop itself has no other exit when `i` never
reaches `shuffled.length`. -/
def groupLoop (shuffled : List Person) (size : Int) :
    Nat → Int → List (List Person) → Option (List (List Person))
  | 0, _, _ => none
  | fuel + 1, i, acc =>
    if i < (shuffled.length : Int) then
      groupLoop shuffled size fuel (i + size) (acc ++ [jsSlice shuffled i (i + size)])
    else some acc

/-- `generateGroups`' computation of the new Group set for a non-empty
roster (App.tsx:185-193): shuffle, then chunk.  `names.length + 1`
iterations suffice for every `size ≥ 1`. -/
def generateGroupsRun (names : List Person) (size : Int) (coins : List Bool) :
    Option (List (List Person)) :=
  groupLoop (shuffle coins names) size (names.length + 1) 0 []

/-- `generateGroups` (App.tsx:182-194) as a state transformer: on an
empty roster it returns early without touching `groups`; otherwise it
stores the freshly computed Group set (`none` marks the non-terminating
loop). -/
def generateGroupsState (coins : List Bool) (size : Int) (s : AppState) :
    Option AppState :=
  if s.names.length = 0 then some s
  else (generateGroupsRun s.names size coins).map fun gs => { s with groups := gs }

/-- Consecutive chunks of `size`, the intended effect of the loop for a
positive `size`. -/
def chunks (size : Nat) (l : List α) : List (List α) :=
  match l, size with
  | [], _ => []
  | _ :: _, 0 => []
  | a :: rest, s + 1 =>
    ((a :: rest).take (s + 1)) :: chunks (s + 1) ((a :: rest).drop (s + 1))
termination_by l.length
decreasing_by simp [List.length_drop]; omega

/-- `removeName` (App.tsx:126-128): filters the Roster by id, touching
nothing else. -/
def removeName (idv : String) (s : AppState) : AppState :=
  { s with names := s.names.filter fun n => n.id != idv }

/-- `String.prototype.trim`: drop whitespace from both ends. -/
def jsTrim (s : String) : String :=
  String.mk (((s.toList.dropWhile Char.isWhitespace).reverse.dropWhile
    Char.isWhitespace).reverse)

/-- The tokenization of `handleAddNames` (App.tsx:115-120):
`inputText.split(/[\n,]+/).map(n => n.trim()).filter(n => n.length > 0)`.
Splitting on each separator character instead of on maximal runs yields
the same tokens, because the extra empty pieces a run produces are
discarded by the length filter. -/
def parseTokens (raw : String) : List String :=
  (((raw.toList.splitOnP fun c => c == '\n' || c == ',').map fun cs =>
      jsTrim (String.mk cs)).filter fun t => t.length > 0)

/-- The tokenization of `handleFileUpload` (App.tsx:100-108):
`results.data.flat().map(n => String(n).trim()).filter(n => n.length > 0)`. -/
def parseRows (rows : List (List String)) : List String :=
  ((rows.flatten.map fun c => jsTrim c).filter fun t => t.length > 0)

/-- Fresh participants for a token batch: token `i` of the batch receives
id `idGen (start + i)` — the id stream models the successive
`Math.random().toString(36).substr(2, 9)` draws. -/
def freshPeople (idGen : Nat → String) (start : Nat) (tokens : List String) :
    List Person :=
  tokens.enum.map fun it => ⟨idGen (start + it.1), it.2⟩

/-- One roster-extending call: `handleAddNames` on a raw text, or the
`handleFileUpload` callback on parsed CSV rows. -/
inductive AddCall where
  | fromText (raw : String)
  | fromRows (rows : List (List String))

/-- The tokens a call contributes, in order. -/
def tokensOf : AddCall → List String
  | .fromText raw => parseTokens raw
  | .fromRows rows => parseRows rows

/-- All participants created by a sequence of add calls, the id stream
threaded through: call after call, each token consumes the next id. -/
def runAddCalls (idGen : Nat → String) : List AddCall → Nat → List Person
  | [], _ => []
  | c :: cs, k =>
      freshPeople idGen k (tokensOf c) ++ runAddCalls idGen cs (k + (tokensOf c).length)

/-- The 8 equiprobable coin triples driving the comparator sort of a
3-element roster (each `Math.random() - 0.5` sign is an independent fair
coin; at most 3 comparisons happen, extra coins are ignored). -/
def coinTriples : List (List Bool) :=
  [[false, false, false], [false, false, true], [false, true, false],
   [false, true, true], [true, false, false], [true, false, true],
   [true, true, false], [true, true, true]]

/-- A 3-participant roster for the shuffle-bias computation. -/
def rosterABC : List Person := [⟨"1", "A"⟩, ⟨"2", "B"⟩, ⟨"3", "C"⟩]

/-- The 5-participant roster of the spec's grouping example. -/
def roster5 : List Person :=
  [⟨"1", "A"⟩, ⟨"2", "B"⟩, ⟨"3", "C"⟩, ⟨"4", "D"⟩, ⟨"5", "E"⟩]

/-- Participant "A" of the spec's draw example. -/
def pA : Person := ⟨"1", "A"⟩

/-- Participant "B" of the spec's draw example. -/
def pB : Person := ⟨"2", "B"⟩

theorem eligiblePool_eq_nil_iff (names winners : List Person) :
    eligiblePool names winners false = [] ↔
      ∀ n ∈ names, n.id ∈ winners.map Person.id := by
  simp only [eligiblePool, if_neg (Bool.false_ne_true), List.filter_eq_nil_iff,
    Bool.not_eq_true, Bool.not_eq_true', List.any_eq_true, beq_iff_eq, List.mem_map]
  constructor
  · intro h n hn
    rcases (by simpa using h n hn) with ⟨w, hw, he⟩
    exact ⟨w, hw, he⟩
  · intro h n hn
    rcases h n hn with ⟨w, hw, he⟩
    simp only [List.any_eq_true, beq_iff_eq, Bool.not_eq_true] at *
    simp [Bool.not_eq_true', List.any_eq_true]
    exact ⟨w, hw, he⟩

/-- C10: `removeName` changes only the Roster: the Winner record and the
Group set are untouched, the remaining roster keeps its relative order (a
sublist of the old roster), and a participant survives exactly when its id
differs from the removed one. -/
theorem removeName_only_roster (s : AppState) (idv : String) :
    (removeName idv s).winners = s.winners ∧
    (removeName idv s).groups = s.groups ∧
    List.Sublist (removeName idv s).names s.names ∧
    (∀ p, p ∈ (removeName idv s).names ↔ p ∈ s.names ∧ p.id ≠ idv) := by
  refine ⟨rfl, rfl, List.filter_sublist _, fun p => ?_⟩
  simp [removeName, List.mem_filter]

/-- C5 counterexample: on an empty Roster, `startDraw` returns through the
silent early return of App.tsx:140, not through the `NoCandidates` alert of
App.tsx:147. -/
theorem startDraw_empty_roster_silent :
    startDraw [] [] false 0 = (DrawSignal.silentReturn, []) ∧
    DrawSignal.silentReturn ≠ DrawSignal.noCandidates := by
  decide

/-- C5 (amended): an empty Roster makes `startDraw` return silently with
the Winner record unchanged; a non-empty Roster with an empty eligible pool
signals `NoCandidates`, again leaving the Winner record unchanged; with
`allowRepeat = false` the pool is empty exactly when every roster id
already appears in the Winner record; and a non-empty pool always draws a
winner — there is no further failure path. -/
theorem startDraw_failure_spec (names winners : List Person)
    (allowRepeat : Bool) (k : Nat) :
    (names = [] →
      startDraw names winners allowRepeat k = (DrawSignal.silentReturn, winners)) ∧
    (names ≠ [] → eligiblePool names winners allowRepeat = [] →
      startDraw names winners allowRepeat k = (DrawSignal.noCandidates, winners)) ∧
    (eligiblePool names winners false = [] ↔
      ∀ n ∈ names, n.id ∈ winners.map Person.id) ∧
    (names ≠ [] → eligiblePool names winners allowRepeat ≠ [] →
      ∃ w, startDraw names winners allowRepeat k = (DrawSignal.drew w, w :: winners)) := by
  refine ⟨?_, ?_, eligiblePool_eq_nil_iff names winners, ?_⟩
  · intro h; subst h; rfl
  · intro hne hpool
    have hlen : names.length ≠ 0 := by simpa [List.length_eq_zero] using hne
    simp [startDraw, hlen, hpool]
  · intro hne hpool
    have hlen : names.length ≠ 0 := by simpa [List.length_eq_zero] using hne
    have hplen : (eligiblePool names winners allowRepeat).length ≠ 0 := by
      simpa [List.length_eq_zero] using hpool
    exact ⟨(eligiblePool names winners allowRepeat).getD k ⟨"", ""⟩,
      by simp [startDraw, hlen, hplen]⟩

/-- C6: with `allowRepeat = false` and a non-empty eligible pool,
`startDraw` draws a roster participant whose id is absent from the Winner
record and prepends it (most-recent-first); when the pool is a singleton
the drawn participant does not depend on the random index. -/
theorem startDraw_noRepeat_success (names winners : List Person) (k : Nat)
    (hk : k < (eligiblePool names winners false).length) :
    ∃ w, startDraw names winners false k = (DrawSignal.drew w, w :: winners) ∧
      w ∈ names ∧ (∀ v ∈ winners, v.id ≠ w.id) ∧
      ((eligiblePool names winners false).length = 1 →
        ∀ kk, kk < (eligiblePool names winners false).length →
          startDraw names winners false kk = startDraw names winners false k) := by
  have hplen : (eligiblePool names winners false).length ≠ 0 := by omega
  have hlen : names.length ≠ 0 := by
    intro h
    rw [List.length_eq_zero] at h
    subst h
    simp [eligiblePool] at hk
  have hmem : (eligiblePool names winners false).getD k ⟨"", ""⟩ ∈
      eligiblePool names winners false := by
    rw [List.getD_eq_getElem _ _ hk]
    exact List.getElem_mem hk
  have hfilter : (eligiblePool names winners false).getD k ⟨"", ""⟩ ∈
      names.filter fun n => !(winners.any fun w => w.id == n.id) := by
    simpa [eligiblePool] using hmem
  refine ⟨(eligiblePool names winners false).getD k ⟨"", ""⟩, ?_, ?_, ?_, ?_⟩
  · simp [startDraw, hlen, hplen]
  · exact List.mem_of_mem_filter hfilter
  · intro v hv he
    have hp := List.of_mem_filter hfilter
    simp only [Bool.not_eq_true', List.any_eq_false, beq_eq_false_iff_ne] at hp
    exact hp v hv (beq_iff_eq.mpr he)
  · intro h1 kk hkk
    have hk0 : k = 0 := by omega
    have hkk0 : kk = 0 := by omega
    rw [hk0, hkk0]

/-- C6 witness: the spec's example — Roster = [A, B], WinnerRecord = [A],
`allowRepeat=false`, pool = {B}. -/
theorem startDraw_noRepeat_success_witness :
    ∃ w, startDraw [pA, pB] [pA] false 0 = (DrawSignal.drew w, w :: [pA]) ∧
      w ∈ [pA, pB] ∧ (∀ v ∈ [pA], v.id ≠ w.id) ∧
      ((eligiblePool [pA, pB] [pA] false).length = 1 →
        ∀ kk, kk < (eligiblePool [pA, pB] [pA] false).length →
          startDraw [pA, pB] [pA] false kk = startDraw [pA, pB] [pA] false 0) :=
  startDraw_noRepeat_success [pA, pB] [pA] 0 (by decide)

theorem removeDuplicatesAux_sublist (seen : List String) (l : List Person) :
    List.Sublist (removeDuplicatesAux seen l) l := by
  induction l generalizing seen with
  | nil => simp [removeDuplicatesAux]
  | cons q rest ih =>
    by_cases hq : q.name ∈ seen
    · simp only [removeDuplicatesAux, if_pos hq]
      exact (ih _).trans (List.sublist_cons_self q rest)
    · simp only [removeDuplicatesAux, if_neg hq]
      exact List.Sublist.cons₂ q (ih _)

theorem removeDuplicatesAux_name_not_seen (seen : List String) (l : List Person) :
    ∀ p ∈ removeDuplicatesAux seen l, p.name ∉ seen := by
  induction l generalizing seen with
  | nil => simp [removeDuplicatesAux]
  | cons q rest ih =>
    intro p hp
    by_cases hq : q.name ∈ seen
    · rw [removeDuplicatesAux, if_pos hq] at hp
      exact fun hs => ih _ p hp (List.mem_cons_of_mem _ hs)
    · rw [removeDuplicatesAux, if_neg hq] at hp
      rcases List.mem_cons.mp hp with h | h
      · subst h; exact hq
      · exact fun hs => ih _ p h (List.mem_cons_of_mem _ hs)

theorem removeDuplicatesAux_names_nodup (seen : List String) (l : List Person) :
    ((removeDuplicatesAux seen l).map Person.name).Nodup := by
  induction l generalizing seen with
  | nil => simp [removeDuplicatesAux]
  | cons q rest ih =>
    by_cases hq : q.name ∈ seen
    · simp only [removeDuplicatesAux, if_pos hq]; exact ih _
    · simp only [removeDuplicatesAux, if_neg hq, List.map_cons, List.nodup_cons]
      refine ⟨fun hmem => ?_, ih _⟩
      rcases List.mem_map.mp hmem with ⟨p, hp, hname⟩
      exact removeDuplicatesAux_name_not_seen _ _ p hp
        (by rw [hname]; exact List.mem_cons_self _ _)

theorem removeDuplicatesAux_mem_iff (seen : List String) (l : List Person)
    (p : Person) :
    p ∈ removeDuplicatesAux seen l ↔
      p ∈ l ∧ p.name ∉ seen ∧ l.find? (fun q => q.name == p.name) = some p := by
  induction l generalizing seen with
  | nil => simp [removeDuplicatesAux]
  | cons q rest ih =>
    by_cases hq : q.name ∈ seen
    · rw [removeDuplicatesAux, if_pos hq, ih]
      by_cases hname : q.name = p.name
      · constructor
        · rintro ⟨-, hps, -⟩
          exact absurd (List.mem_cons_self _ _) (by rw [hname] at *; exact fun h => hps h)
        · rintro ⟨-, hps, -⟩
          exact absurd (hname ▸ hq) hps
      · rw [List.find?_cons_of_neg rest (by simpa using hname)]
        constructor
        · rintro ⟨hmem, hps, hfind⟩
          exact ⟨List.mem_cons_of_mem _ hmem,
            fun h => hps (List.mem_cons_of_mem _ h), hfind⟩
        · rintro ⟨hmem, hps, hfind⟩
          rcases List.mem_cons.mp hmem with h | h
          · exact absurd (h ▸ rfl : q.name = p.name) hname
          · refine ⟨h, fun hcon => ?_, hfind⟩
            rcases List.mem_cons.mp hcon with h2 | h2
            · exact hname h2.symm
            · exact hps h2
    · by_cases hname : q.name = p.name
      · rw [removeDuplicatesAux, if_neg hq,
          List.find?_cons_of_pos rest (by simpa using hname)]
        constructor
        · intro hmem
          rcases List.mem_cons.mp hmem with h | h
          · subst h
            exact ⟨List.mem_cons_self _ _, hname ▸ hq, rfl⟩
          · have := (ih (q.name :: seen) |>.mp h).2.1
            exact absurd (hname ▸ List.mem_cons_self _ _) this
        · rintro ⟨-, -, hqp⟩
          exact List.mem_cons.mpr (Or.inl (Option.some.inj hqp).symm)
      · rw [removeDuplicatesAux, if_neg hq,
          List.find?_cons_of_neg rest (by simpa using hname)]
        constructor
        · intro hmem
          rcases List.mem_cons.mp hmem with h | h
          · exact absurd (congrArg Person.name h.symm) hname
          · rcases (ih (q.name :: seen)).mp h with ⟨hmem2, hps, hfind⟩
            exact ⟨List.mem_cons_of_mem _ hmem2,
              fun hcon => hps (List.mem_cons_of_mem _ hcon), hfind⟩
        · rintro ⟨hmem, hps, hfind⟩
          rcases List.mem_cons.mp hmem with h | h
          · exact absurd (congrArg Person.name h.symm) hname
          · refine List.mem_cons_of_mem _ ((ih (q.name :: seen)).mpr ⟨h, ?_, hfind⟩)
            intro hcon
            rcases List.mem_cons.mp hcon with h2 | h2
            · exact hname h2.symm
            · exact hps h2

theorem removeDuplicatesAux_of_nodup (seen : List String) (l : List Person)
    (hn : (l.map Person.name).Nodup) (hd : ∀ p ∈ l, p.name ∉ seen) :
    removeDuplicatesAux seen l = l := by
  induction l generalizing seen with
  | nil => rfl
  | cons q rest ih =>
    have hq : q.name ∉ seen := hd q (List.mem_cons_self _ _)
    rw [removeDuplicatesAux, if_neg hq]
    congr 1
    apply ih
    · exact (List.nodup_cons.mp (by simpa using hn)).2
    · intro p hp hmem
      rcases List.mem_cons.mp hmem with h | h
      · exact (List.nodup_cons.mp (by simpa using hn)).1
          (List.mem_map.mpr ⟨p, hp, h⟩)
      · exact hd p (List.mem_cons_of_mem _ hp) h

/-- C8: `removeDuplicates` keeps, for each name, only the earliest-inserted
participant with that name (membership holds exactly for the first `find?`
hit of each name), preserves relative order (the result is a sublist of
the input), leaves no duplicated names, and is idempotent. -/
theorem removeDuplicates_keep_first (names : List Person) :
    List.Sublist (removeDuplicates names) names ∧
    ((removeDuplicates names).map Person.name).Nodup ∧
    (∀ p, p ∈ removeDuplicates names ↔
      p ∈ names ∧ names.find? (fun q => q.name == p.name) = some p) ∧
    removeDuplicates (removeDuplicates names) = removeDuplicates names := by
  refine ⟨removeDuplicatesAux_sublist [] names,
    removeDuplicatesAux_names_nodup [] names, fun p => ?_, ?_⟩
  · rw [removeDuplicates, removeDuplicatesAux_mem_iff]
    simp
  · exact removeDuplicatesAux_of_nodup [] _
      (removeDuplicatesAux_names_nodup [] names) (by simp)

theorem dupNames_eq_filter (l : List Person) (seen : List String) (n : Nat) :
    ((List.enumFrom n l).filter fun pi =>
        decide (pi.2.name ∈ seen) ||
          (l.findIdx (fun q => q.name == pi.2.name) + n != pi.1)).map
      (fun pi => pi.2.name) = dupNames seen l := by
  induction l generalizing seen n with
  | nil => simp [dupNames]
  | cons p rest ih =>
    rw [List.enumFrom_cons, List.filter_cons]
    have h0 : (p :: rest).findIdx (fun q => q.name == p.name) = 0 := by
      simp [List.findIdx_cons]
    have hhead : (decide (p.name ∈ seen) ||
        ((p :: rest).findIdx (fun q => q.name == p.name) + n != n)) =
        decide (p.name ∈ seen) := by
      simp [h0]
    have htail : List.filter (fun pi =>
          decide (pi.2.name ∈ seen) ||
            ((p :: rest).findIdx (fun q => q.name == pi.2.name) + n != pi.1))
          (List.enumFrom (n + 1) rest) =
        List.filter (fun pi =>
          decide (pi.2.name ∈ p.name :: seen) ||
            (rest.findIdx (fun q => q.name == pi.2.name) + (n + 1) != pi.1))
          (List.enumFrom (n + 1) rest) := by
      apply List.filter_congr
      rintro ⟨i, q⟩ hx
      have hi : n + 1 ≤ i := (List.mem_enumFrom hx).1
      by_cases hpq : p.name = q.name
      · have hfi : (p :: rest).findIdx (fun r => r.name == q.name) = 0 := by
          simp [List.findIdx_cons, hpq]
        have hne : ((0 : Nat) + n != i) = true := by
          simp only [bne_iff_ne, ne_eq]
          omega
        simp only [hfi, hne, Bool.or_true]
        have : q.name ∈ p.name :: seen := by rw [← hpq]; exact List.mem_cons_self _ _
        simp [this]
      · have hqp : q.name ≠ p.name := fun h => hpq h.symm
        have hfi : (p :: rest).findIdx (fun r => r.name == q.name) =
            rest.findIdx (fun r => r.name == q.name) + 1 := by
          simp [List.findIdx_cons, Bool.cond_eq_if, beq_iff_eq, hpq]
        rw [hfi]
        have harith : rest.findIdx (fun r => r.name == q.name) + 1 + n =
            rest.findIdx (fun r => r.name == q.name) + (n + 1) := by omega
        rw [harith]
        simp [List.mem_cons, hqp]
    by_cases hps : p.name ∈ seen
    · rw [hhead] at *
      simp only [decide_eq_true hps, if_pos]  -- head kept
      rw [htail]
      simp only [List.map_cons]
      rw [ih (p.name :: seen) (n + 1)]
      simp [dupNames, hps]
    · rw [hhead] at *
      simp only [decide_eq_false hps]
      rw [if_neg (by simp)]
      rw [htail, ih (p.name :: seen) (n + 1)]
      simp [dupNames, hps]

theorem duplicates_eq_dupNames (names : List Person) :
    duplicates names = dupNames [] names := by
  rw [← dupNames_eq_filter names [] 0]
  rfl

theorem dupNames_count (seen : List String) (l : List Person) (s : String) :
    (dupNames seen l).count s =
      if s ∈ seen then (l.map Person.name).count s
      else (l.map Person.name).count s - 1 := by
  induction l generalizing seen with
  | nil => simp [dupNames]
  | cons p rest ih =>
    simp only [dupNames, List.map_cons, List.count_append, List.count_cons,
      ih (p.name :: seen)]
    by_cases h1 : p.name = s
    · subst h1
      by_cases h2 : p.name ∈ seen <;>
        · simp [List.mem_cons, h2, List.count_cons, beq_iff_eq]
          try omega
    · have h1s : s ≠ p.name := fun h => h1 h.symm
      by_cases hps : p.name ∈ seen <;> by_cases h2 : s ∈ seen <;>
        · simp [List.mem_cons, h1, h1s, h2, hps, List.count_cons, beq_iff_eq]
          try omega

/-- C3 counterexample: in the Roster [A, A, A] (three participants named
"A") the name "A" appears twice in `duplicates`, not exactly once: the
result lists every non-first occurrence, it is not a set of distinct
names. -/
theorem duplicates_not_a_set :
    duplicates [⟨"1", "A"⟩, ⟨"2", "A"⟩, ⟨"3", "A"⟩] = ["A", "A"] ∧
    (duplicates [⟨"1", "A"⟩, ⟨"2", "A"⟩, ⟨"3", "A"⟩]).count "A" ≠ 1 := by
  decide

/-- C3 (amended): a name belongs to `duplicates` exactly when it is borne
by 2 or more participants, and the result is empty exactly when all names
are pairwise distinct; but each duplicated name appears with multiplicity
count − 1 (once per non-first occurrence), not exactly once. -/
theorem duplicates_spec (names : List Person) :
    (∀ s, s ∈ duplicates names ↔ 2 ≤ (names.map Person.name).count s) ∧
    (∀ s, (duplicates names).count s = (names.map Person.name).count s - 1) ∧
    (duplicates names = [] ↔ (names.map Person.name).Nodup) := by
  have hc : ∀ s, (duplicates names).count s =
      (names.map Person.name).count s - 1 := by
    intro s
    rw [duplicates_eq_dupNames, dupNames_count]
    simp
  refine ⟨fun s => ?_, hc, ?_⟩
  · rw [← List.count_pos_iff, hc]
    omega
  · constructor
    · intro h
      rw [List.nodup_iff_count_le_one]
      intro a
      have h2 := hc a
      rw [h] at h2
      simp only [List.count_nil] at h2
      omega
    · intro h
      rw [List.eq_nil_iff_forall_not_mem]
      intro s hs
      have h1 := (List.nodup_iff_count_le_one.mp h) s
      have h2 := hc s
      have h3 : 0 < (duplicates names).count s :=
        List.count_pos_iff.mpr hs
      omega

theorem freshPeople_map_id (idGen : Nat → String) (start : Nat)
    (tokens : List String) :
    (freshPeople idGen start tokens).map Person.id =
      (List.range' start tokens.length).map idGen := by
  rw [List.range'_eq_map_range, List.map_map, freshPeople, List.map_map,
    ← List.enum_map_fst tokens, List.map_map]
  rfl

theorem runAddCalls_map_id (idGen : Nat → String) (calls : List AddCall)
    (k : Nat) :
    (runAddCalls idGen calls k).map Person.id =
      (List.range' k ((calls.map fun c => (tokensOf c).length).sum)).map idGen := by
  induction calls generalizing k with
  | nil => simp [runAddCalls]
  | cons c cs ih =>
    simp only [runAddCalls, List.map_append, freshPeople_map_id, ih,
      List.map_cons, List.sum_cons]
    rw [← List.map_append]
    congr 1
    have h := List.range'_append k ((tokensOf c).length)
      ((cs.map fun x => (tokensOf x).length).sum) 1
    simp only [one_mul] at h
    rw [h, Nat.add_comm]

/-- C9 counterexample: ids come from the modelled randomness source, so
nothing forces two draws apart — a constant id source creates two distinct
participants ("A" and "B") carrying the same id. -/
theorem runAddCalls_id_collision :
    runAddCalls (fun _ => "x") [AddCall.fromText "A,B"] 0 =
      [⟨"x", "A"⟩, ⟨"x", "B"⟩] ∧
    (⟨"x", "A"⟩ : Person) ≠ ⟨"x", "B"⟩ ∧
    Person.id ⟨"x", "A"⟩ = Person.id ⟨"x", "B"⟩ := by
  decide

/-- C9 (amended): participants created across any sequence of
`AddFromText`/`AddFromRows` calls carry pairwise distinct ids provided the
id stream never repeats a value (the code itself draws random 9-character
strings, which cannot rule out repetition). -/
theorem runAddCalls_ids_nodup (idGen : Nat → String) (calls : List AddCall)
    (hinj : Function.Injective idGen) :
    ((runAddCalls idGen calls 0).map Person.id).Nodup := by
  rw [runAddCalls_map_id]
  exact (List.nodup_range' _ _).map hinj

/-- C9 witness: an injective id stream over one text call and one CSV
call. -/
theorem runAddCalls_ids_nodup_witness :
    ((runAddCalls (fun n => String.mk (List.replicate n 'a'))
        [AddCall.fromText "A,B", AddCall.fromRows [["C"], ["D"]]] 0).map
      Person.id).Nodup :=
  runAddCalls_ids_nodup (fun n => String.mk (List.replicate n 'a'))
    [AddCall.fromText "A,B", AddCall.fromRows [["C"], ["D"]]]
    (fun a b h => by
      have hlen := congrArg (fun s => s.data.length) h
      simpa using hlen)

theorem chunks_nil (k : Nat) {α : Type _} : chunks k ([] : List α) = [] := by
  rw [chunks.eq_def]

theorem chunks_cons (k : Nat) (l : List α) (hk : k ≠ 0) (hl : l ≠ []) :
    chunks k l = l.take k :: chunks k (l.drop k) := by
  cases l with
  | nil => exact absurd rfl hl
  | cons a rest =>
    cases k with
    | zero => exact absurd rfl hk
    | succ s => rw [chunks.eq_def]

theorem chunks_ne_nil (k : Nat) (l : List α) (hk : k ≠ 0) (hl : l ≠ []) :
    chunks k l ≠ [] := by
  rw [chunks_cons k l hk hl]
  simp

theorem chunks_flatten (k : Nat) (hk : k ≠ 0) (l : List α) :
    (chunks k l).flatten = l := by
  by_cases hl : l = []
  · subst hl; simp [chunks_nil]
  · rw [chunks_cons k l hk hl, List.flatten_cons,
      chunks_flatten k hk (l.drop k), List.take_append_drop]
termination_by l.length
decreasing_by
  have h1 : 0 < l.length := List.length_pos.mpr hl
  simp only [List.length_drop]
  omega

theorem insertRand_perm (x : α) (coins : List Bool) (l : List α) :
    (insertRand x coins l).2.Perm (x :: l) := by
  induction l generalizing coins with
  | nil => simp [insertRand]
  | cons y ys ih =>
    simp only [insertRand]
    split
    · exact List.Perm.refl _
    · exact ((ih coins.tail).cons y).trans (List.Perm.swap x y ys)

theorem sortRand_perm (coins : List Bool) (l : List α) :
    (sortRand coins l).2.Perm l := by
  induction l generalizing coins with
  | nil => simp [sortRand]
  | cons x xs ih =>
    simp only [sortRand]
    exact (insertRand_perm x _ _).trans ((ih coins).cons x)

theorem shuffle_perm (coins : List Bool) (l : List α) :
    (shuffle coins l).Perm l :=
  sortRand_perm coins l

theorem jsSlice_eq (l : List α) (n : Nat) (size : Int) (hs : 1 ≤ size)
    (hn : n ≤ l.length) :
    jsSlice l (n : Int) ((n : Int) + size) = (l.drop n).take size.toNat := by
  simp only [jsSlice]
  rw [if_neg (by omega), if_neg (by omega)]
  have hsmin : min ((n : Int)) ((l.length : Int)) = (n : Int) := by omega
  have he : (min ((n : Int) + size) ((l.length : Int))).toNat =
      min (n + size.toNat) l.length := by omega
  rw [hsmin, he, Int.toNat_natCast, List.drop_take]
  by_cases hc : n + size.toNat ≤ l.length
  · have h2 : min (n + size.toNat) l.length - n = size.toNat := by omega
    rw [h2]
  · have h2 : min (n + size.toNat) l.length - n = l.length - n := by omega
    rw [h2, List.take_of_length_le (by simp [List.length_drop]),
      List.take_of_length_le (by simp [List.length_drop]; omega)]

theorem groupLoop_stop (l : List Person) (size : Int) (fuel : Nat) (i : Int)
    (acc : List (List Person)) (h : (l.length : Int) ≤ i) :
    groupLoop l size (fuel + 1) i acc = some acc := by
  simp [groupLoop, not_lt.mpr h]

theorem groupLoop_nonpos_none (l : List Person) (size : Int) (hs : size ≤ 0)
    (hl : l ≠ []) :
    ∀ (fuel : Nat) (i : Int) (acc : List (List Person)), i ≤ 0 →
      groupLoop l size fuel i acc = none := by
  intro fuel
  induction fuel with
  | zero => intro i acc _; rfl
  | succ f ih =>
    intro i acc hi
    have hlen : 0 < l.length := List.length_pos.mpr hl
    simp only [groupLoop]
    rw [if_pos (by omega)]
    exact ih (i + size) _ (by omega)

theorem groupLoop_eq_chunks (l : List Person) (size : Int) (hs : 1 ≤ size) :
    ∀ (fuel : Nat) (n : Nat) (acc : List (List Person)),
      n ≤ l.length → l.length - n < fuel →
      groupLoop l size fuel (n : Int) acc =
        some (acc ++ chunks size.toNat (l.drop n)) := by
  intro fuel
  induction fuel with
  | zero => intro n acc h1 h2; omega
  | succ f ih =>
    intro n acc hn hfuel
    by_cases hlt : n < l.length
    · simp only [groupLoop]
      rw [if_pos (by omega), jsSlice_eq l n size hs hn]
      have hcast : (n : Int) + size = (((n + size.toNat : Nat)) : Int) := by
        omega
      rw [hcast]
      have hdropne : l.drop n ≠ [] := by
        intro h
        rw [← List.length_eq_zero, List.length_drop] at h
        omega
      have hkne : size.toNat ≠ 0 := by omega
      by_cases hc : n + size.toNat ≤ l.length
      · rw [ih (n + size.toNat) _ hc (by omega)]
        rw [List.append_assoc, List.singleton_append]
        rw [chunks_cons size.toNat (l.drop n) hkne hdropne, List.drop_drop]
      · obtain ⟨f1, rfl⟩ : ∃ f1, f = f1 + 1 := ⟨f - 1, by omega⟩
        rw [groupLoop_stop _ _ _ _ _ (by omega)]
        rw [chunks_cons size.toNat (l.drop n) hkne hdropne, List.drop_drop]
        have hdrop2 : l.drop (n + size.toNat) = [] := by
          rw [← List.length_eq_zero, List.length_drop]
          omega
        rw [hdrop2, chunks_nil]
    · have hend : n = l.length := by omega
      obtain rfl := hend
      rw [groupLoop_stop _ _ _ _ _ (by omega)]
      rw [List.drop_length, chunks_nil, List.append_nil]

theorem generateGroupsRun_eq (names : List Person) (size : Int)
    (coins : List Bool) (hs : 1 ≤ size) :
    generateGroupsRun names size coins =
      some (chunks size.toNat (shuffle coins names)) := by
  rw [generateGroupsRun]
  have hlen : (shuffle coins names).length = names.length :=
    (shuffle_perm coins names).length_eq
  have h := groupLoop_eq_chunks (shuffle coins names) size hs
    (names.length + 1) 0 [] (by omega) (by omega)
  simpa using h

theorem chunks_sizes (k : Nat) (hk : k ≠ 0) (l : List α) (hl : l ≠ []) :
    (∀ g ∈ (chunks k l).dropLast, g.length = k) ∧
    (∀ h : chunks k l ≠ [], 1 ≤ ((chunks k l).getLast h).length ∧
      ((chunks k l).getLast h).length ≤ k) := by
  rw [chunks_cons k l hk hl]
  by_cases hrest : l.drop k = []
  · rw [hrest, chunks_nil]
    constructor
    · simp
    · intro h
      simp only [List.getLast_singleton]
      have hlen : l.length ≤ k := by
        rw [← List.length_eq_zero, List.length_drop] at hrest
        omega
      have hpos : 0 < l.length := List.length_pos.mpr hl
      rw [List.length_take]
      omega
  · have hne := chunks_ne_nil k (l.drop k) hk hrest
    have ihp := chunks_sizes k hk (l.drop k) hrest
    constructor
    · intro g hg
      rw [List.dropLast_cons_of_ne_nil hne] at hg
      rcases List.mem_cons.mp hg with h | h
      · subst h
        rw [List.length_take]
        have hklt : k < l.length := by
          by_contra hcon
          exact hrest (List.drop_eq_nil_of_le (by omega))
        omega
      · exact ihp.1 g h
    · intro h
      rw [List.getLast_cons hne]
      exact ihp.2 hne
termination_by l.length
decreasing_by
  have hpos : 0 < l.length := List.length_pos.mpr hl
  simp only [List.length_drop]
  omega

theorem chunks_of_length_le (k : Nat) (l : List α) (hk : k ≠ 0) (hl : l ≠ [])
    (hlen : l.length ≤ k) : chunks k l = [l] := by
  rw [chunks_cons k l hk hl, List.take_of_length_le hlen,
    List.drop_eq_nil_of_le hlen, chunks_nil]

/-- C7: for a non-empty roster and `size ≥ 1`, the grouping run succeeds and
the returned Group set partitions the Roster: the groups concatenated in
order are a permutation of the roster (no omission, no duplication), every
group except possibly the last has exactly `size` members, the last has
between 1 and `size`, and when `size` exceeds the roster length there is
exactly one group carrying all participants. -/
theorem generateGroups_partitions (names : List Person) (coins : List Bool)
    (size : Int) (hne : names ≠ []) (hs : 1 ≤ size) :
    ∃ gs, generateGroupsRun names size coins = some gs ∧
      gs.flatten.Perm names ∧
      (∀ g ∈ gs.dropLast, g.length = size.toNat) ∧
      (∀ h : gs ≠ [], 1 ≤ (gs.getLast h).length ∧
        (gs.getLast h).length ≤ size.toNat) ∧
      ((names.length : Int) < size → ∃ g, gs = [g] ∧ g.Perm names) := by
  have hkne : size.toNat ≠ 0 := by omega
  have hshne : shuffle coins names ≠ [] := by
    intro h
    have h1 := (shuffle_perm coins names).length_eq
    rw [h] at h1
    have h2 := List.length_pos.mpr hne
    simp only [List.length_nil] at h1
    omega
  refine ⟨chunks size.toNat (shuffle coins names),
    generateGroupsRun_eq names size coins hs, ?_,
    (chunks_sizes _ hkne _ hshne).1, (chunks_sizes _ hkne _ hshne).2, ?_⟩
  · rw [chunks_flatten _ hkne]
    exact shuffle_perm coins names
  · intro hlt
    refine ⟨shuffle coins names, ?_, shuffle_perm coins names⟩
    apply chunks_of_length_le _ _ hkne hshne
    rw [(shuffle_perm coins names).length_eq]
    omega

/-- C7 witness: the spec's example — a roster of 5 with `size = 2` (group
sizes [2, 2, 1]). -/
theorem generateGroups_partitions_witness :
    ∃ gs, generateGroupsRun roster5 2 [] = some gs ∧
      gs.flatten.Perm roster5 ∧
      (∀ g ∈ gs.dropLast, g.length = (2 : Int).toNat) ∧
      (∀ h : gs ≠ [], 1 ≤ (gs.getLast h).length ∧
        (gs.getLast h).length ≤ (2 : Int).toNat) ∧
      ((roster5.length : Int) < 2 → ∃ g, gs = [g] ∧ g.Perm roster5) :=
  generateGroups_partitions roster5 [] 2 (by decide) (by decide)

/-- C2: the code has no `InvalidSize` check whatsoever: for the
non-positive size −2 (typeable into the group-size number input) and a
one-person roster, the chunking loop of App.tsx:189-191 runs forever — no
iteration bound makes it return — instead of signaling `InvalidSize`. -/
theorem generateGroups_no_invalidSize_guard :
    ∀ (fuel : Nat) (acc : List (List Person)),
      groupLoop (shuffle [] [⟨"1", "A"⟩]) (-2) fuel 0 acc = none := by
  intro fuel acc
  exact groupLoop_nonpos_none _ _ (by decide) (by decide) fuel 0 acc (by decide)

/-- C4 counterexample: `generateGroups` on an empty roster returns through
the early return of App.tsx:183 without recomputing: a previously stored
non-empty Group set survives instead of being replaced by the empty one. -/
theorem generateGroups_empty_keeps_old_groups :
    generateGroupsState [] 2 ⟨[], [], [[⟨"1", "A"⟩]]⟩ =
      some ⟨[], [], [[⟨"1", "A"⟩]]⟩ ∧
    ([[(⟨"1", "A"⟩ : Person)]] : List (List Person)) ≠ [] := by
  decide

/-- C4 (amended): on an empty roster `generateGroups` is a successful
no-op: it does not error, and the whole state — any previously computed
Group set included — is left unchanged rather than the Group set being
replaced by the empty one. -/
theorem generateGroups_empty_roster_noop (coins : List Bool) (size : Int)
    (s : AppState) (h : s.names = []) :
    generateGroupsState coins size s = some s := by
  simp [generateGroupsState, h]

/-- C4 witness: empty roster, stale winners and groups. -/
theorem generateGroups_empty_roster_noop_witness :
    generateGroupsState [] 4 ⟨[], [pA], [[pA]]⟩ = some ⟨[], [pA], [[pA]]⟩ :=
  generateGroups_empty_roster_noop [] 4 ⟨[], [pA], [[pA]]⟩ rfl

/-- C1: the comparator shuffle is not order-uniform.  Over the 8
equiprobable comparator-coin triples, the 3-element roster comes out in its
original order in 2 cases but as [B, A, C] in only 1; a uniform shuffle
would give every permutation the same count. -/
theorem shuffle_not_uniform :
    (coinTriples.filter fun cs => decide (shuffle cs rosterABC = rosterABC)).length ≠
    (coinTriples.filter fun cs =>
      decide (shuffle cs rosterABC =
        [⟨"2", "B"⟩, ⟨"1", "A"⟩, ⟨"3", "C"⟩])).length := by
  decide
